import Mathlib

/-!
# Verification of the Verdictr search UI result pipeline

A shallow embedding, in Lean 4, of the result-composition and presentation
pipeline implemented in `src/app/semantic-search/SearchUI.js`:

* `normalizeString` — the facet normalizer (lower-case, strip characters
  outside the JS `\w`, `\s`, `&` classes, trim);
* `highlightText` — the match highlighter (`<mark>` wrapping with a
  regex-escaped, case-insensitive, global literal search);
* `composeView` — the `filteredData` effect: candidate selection between the
  baseline dataset and active search results, year/policy filtering, and
  the two sorts (descending score in search mode, year order otherwise);
* `totalPages` / `currentPageData` — the pagination derivations;
* `handleSubmit` — the submit handler's state transition, with the awaited
  network call abstracted as an `Except` parameter.

Machine conventions: JS strings are `String` (lists of `Char`), nullable or
possibly-absent values are `Option`, relevance scores are `ℚ`, thrown
exceptions are `Except.error`.  `Array.prototype.sort` with a comparator
`cmp` is modelled as a stable insertion sort ordered by `cmp a b ≤ 0`
(ECMAScript requires the sort to be stable, and coerces a NaN comparator
result to `+0`); for consistent comparators every stable sort agrees, so
this is faithful there, and the concrete inconsistent-comparator inputs
used below involve a single comparison, on which every algorithm agrees.
-/

/-! ## Records and the data model -/

/-- A case record as consumed by the pipeline (one element of
`database.json` or one enriched search match).  `score` is only present on
search matches; `policy_area` and `text` may be absent on malformed
records, which the JS treats as `undefined`. -/
structure Record where
  case_number : String
  year : String
  policy_area : Option String
  topic : String
  text : Option String
  link : String
  score : Option ℚ
deriving DecidableEq, Repr

/-! ## FacetNormalizer (source lines 31–37) -/

/-- JS `\w` character class with the `u` flag unset: ASCII letters, digits
and underscore. -/
def isWordChar (c : Char) : Bool :=
  c.isAlpha || c.isDigit || c == '_'

/-- Characters kept by `normalizeString`'s `.replace(/[^\w\s&]/g, "")`:
word characters, whitespace, and the ampersand. -/
def keepChar (c : Char) : Bool :=
  isWordChar c || c.isWhitespace || c == '&'

/-- Drop leading whitespace, as the front half of `String.prototype.trim`. -/
def trimLeftC (l : List Char) : List Char :=
  l.dropWhile Char.isWhitespace

/-- Drop trailing whitespace, as the back half of `String.prototype.trim`. -/
def trimRightC (l : List Char) : List Char :=
  (l.reverse.dropWhile Char.isWhitespace).reverse

/-- `String.prototype.trim`: drop whitespace at both ends. -/
def trimChars (l : List Char) : List Char :=
  trimRightC (trimLeftC l)

/-- `String.prototype.trim` packaged on `String`, used wherever the JS
calls `.trim()`. -/
def jsTrim (s : String) : String :=
  String.mk (trimChars s.data)

/-- `normalizeString` from the source: falsy input (absent or empty) maps
to `""`; otherwise lower-case, delete every character outside
`[\w\s&]`, and trim.  ASCII model of `toLowerCase`/`\s`. -/
def normalizeString (str : Option String) : String :=
  match str with
  | none => ""
  | some s =>
    if s = "" then ""
    else String.mk (trimChars ((s.data.map Char.toLower).filter keepChar))

/-- The normalizer exactly as the specification words it: keep only
letters, digits, whitespace and `&` (no underscore).  Used to compare the
specification's sentence against the implementation. -/
def normalizeSpecClaim (str : Option String) : String :=
  match str with
  | none => ""
  | some s =>
    String.mk (trimChars (s.data.filterMap (fun c =>
      let d := c.toLower
      if d.isAlpha || d.isDigit || d.isWhitespace || d == '&' then some d else none)))

/-- The normalizer as the specification's sentence reads once amended to
also keep the underscore (the JS `\w` class).  Written as a single
`filterMap` pass rather than the implementation's map-then-filter
pipeline. -/
def normalizeAmendedSpec (str : Option String) : String :=
  match str with
  | none => ""
  | some s =>
    String.mk (trimChars (s.data.filterMap (fun c =>
      let d := c.toLower
      if isWordChar d || d.isWhitespace || d == '&' then some d else none)))

/-! ## TextHighlighter (source lines 39–44) -/

/-- The metacharacters escaped by the source's
`searchTerm.replace(/[.*+?^$\x7b\x7d()|[\]\\]/g, "\\$&")`. -/
def metaChars : List Char :=
  ['.', '*', '+', '?', '^', '$', '\x7b', '\x7d', '(', ')', '|', '[', ']', '\\']

/-- Whether a character is one of the escaped regex metacharacters. -/
def isMetaChar (c : Char) : Bool :=
  metaChars.contains c

/-- The escaping pass itself: prefix each metacharacter with a backslash. -/
def escapeRegExpChars : List Char → List Char
  | [] => []
  | c :: rest =>
    if isMetaChar c then '\\' :: c :: escapeRegExpChars rest
    else c :: escapeRegExpChars rest

/-- Reading of a regex pattern as a literal string.  Returns `some lit`
when every metacharacter occurrence is backslash-escaped, so that
`new RegExp` is guaranteed to accept the pattern and match it as the
literal `lit`; returns `none` when a bare metacharacter (or a trailing
backslash) appears, in which case the constructor may throw or the pattern
may not be a literal.  The surrounding capture group `( … )` added at
source line 42 is statically well-formed, so pattern validity is decided
by the escaped term alone. -/
def parseLiteralPattern : List Char → Option (List Char)
  | [] => some []
  | c :: rest =>
    if c = '\\' then
      match rest with
      | [] => none
      | d :: rest2 => (parseLiteralPattern rest2).map (d :: ·)
    else if isMetaChar c then none
    else (parseLiteralPattern rest).map (c :: ·)

/-- Case-insensitive prefix test, modelling the regex `i` flag on ASCII. -/
def isPrefixCI (pat l : List Char) : Bool :=
  (l.take pat.length).map Char.toLower == pat.map Char.toLower

/-- Global replacement of every case-insensitive occurrence of the
(nonempty) literal `p0 :: prest` in the text by the occurrence wrapped in
`<mark>…</mark>`, leftmost-first and non-overlapping, exactly as
`text.replace(regex, "<mark>$1</mark>")` behaves for a literal pattern. -/
def replaceAllMark (p0 : Char) (prest : List Char) : List Char → List Char
  | [] => []
  | c :: rest =>
    if isPrefixCI (p0 :: prest) (c :: rest) then
      "<mark>".data ++ (c :: rest).take (p0 :: prest).length ++ "</mark>".data
        ++ replaceAllMark p0 prest (rest.drop prest.length)
    else c :: replaceAllMark p0 prest rest
termination_by l => l.length
decreasing_by
  · simp only [List.length_drop, List.length_cons]
    omega
  · simp only [List.length_cons]
    omega

/-- What `text.replace(/()/gi, "<mark>$1</mark>")` produces for the empty
pattern: an empty emphasized span at every position.  Unreachable from the
UI (the term is nonempty there) but kept for totality of the model. -/
def emptyPatInsert : List Char → List Char
  | [] => "<mark></mark>".data
  | c :: rest => "<mark></mark>".data ++ c :: emptyPatInsert rest

/-- `highlightText` from the source.  `text` is `Option String` because the
render site passes `item.text`, which may be absent; `Except.error ()`
models a thrown exception (`new RegExp` on an invalid pattern, or
`text.replace` on a nullish `text`).  Evaluation order matches the JS:
the blank-term early return, then regex construction, then `text.replace`. -/
def highlightText (text : Option String) (searchTerm : String) :
    Except Unit (Option String) :=
  if jsTrim searchTerm = "" then .ok text
  else
    match parseLiteralPattern (escapeRegExpChars searchTerm.data) with
    | none => .error ()
    | some lit =>
      match text with
      | none => .error ()
      | some t =>
        match lit with
        | [] => .ok (some (String.mk (emptyPatInsert t.data)))
        | p0 :: prest => .ok (some (String.mk (replaceAllMark p0 prest t.data)))

/-! ## JS `parseInt(str, 10)` -/

/-- Value of a digit string, most significant first. -/
def digitsToNat (l : List Char) : ℕ :=
  l.foldl (fun n c => 10 * n + (c.toNat - 48)) 0

/-- `parseInt(s, 10)`: skip leading whitespace, an optional sign, then the
longest digit prefix; `none` models `NaN` (no digits found). -/
def parseIntJS (s : String) : Option Int :=
  let core : List Char → Option Int := fun rest =>
    let ds := rest.takeWhile Char.isDigit
    if ds.isEmpty then none else some (digitsToNat ds)
  match s.data.dropWhile Char.isWhitespace with
  | '-' :: rest => (core rest).map (fun n => -n)
  | '+' :: rest => core rest
  | rest => core rest

/-! ## The stable sort model -/

/-- Insert `x` before the first element `y` of `l` with `¬ le x y`. -/
def insort {α : Type} (le : α → α → Bool) (x : α) : List α → List α
  | [] => [x]
  | y :: ys => if le x y then x :: y :: ys else y :: insort le x ys

/-- Stable insertion sort: the model of `Array.prototype.sort(cmp)` with
`le a b := cmp a b ≤ 0`. -/
def isort {α : Type} (le : α → α → Bool) : List α → List α
  | [] => []
  | x :: xs => insort le x (isort le xs)

/-! ## ResultComposer (source lines 118–144) -/

/-- The comparator `(a, b) => b.score - a.score` of source line 132, after
ECMAScript's `SortCompare` coercion of a NaN result (absent score) to
`+0`. -/
def jsScoreComparator (a b : Record) : ℚ :=
  match b.score, a.score with
  | some sb, some sa => sb - sa
  | _, _ => 0

/-- "`a` may precede `b`" for the score sort: comparator value `≤ 0`. -/
def scoreLe (a b : Record) : Bool :=
  jsScoreComparator a b ≤ 0

/-- The year comparator of source lines 135–139:
`sortOrder === "newest" ? yB - yA : yA - yB` on `parseInt`-ed years, with a
NaN result (either year unparsable) coerced to `+0` by `SortCompare`. -/
def jsYearComparator (sortOrder : String) (a b : Record) : Int :=
  match parseIntJS a.year, parseIntJS b.year with
  | some yA, some yB => if sortOrder == "newest" then yB - yA else yA - yB
  | _, _ => 0

/-- "`a` may precede `b`" for the baseline year sort. -/
def yearLe (sortOrder : String) (a b : Record) : Bool :=
  jsYearComparator sortOrder a b ≤ 0

/-- The filter predicate of source lines 122–128: keep an item iff the year
filter is unset (falsy, i.e. `""`) or strictly equal to the item's year,
and the policy filter is unset or equal after normalization. -/
def keepItem (selectedYear selectedPolicy : String) (item : Record) : Bool :=
  (selectedYear == "" || item.year == selectedYear)
    && (selectedPolicy == ""
        || normalizeString item.policy_area == normalizeString (some selectedPolicy))

/-- `rawResults !== null ? rawResults : rawData` — the candidate sequence. -/
def candidateList (rawData : List Record) (rawResults : Option (List Record)) :
    List Record :=
  match rawResults with
  | some rs => rs
  | none => rawData

/-- The `filteredData` effect of source lines 119–144: pick the candidate
list, filter it, then sort — by descending score when search results are
active, by year per `sortOrder` otherwise. -/
def composeView (rawData : List Record) (rawResults : Option (List Record))
    (selectedYear selectedPolicy sortOrder : String) : List Record :=
  let l := (candidateList rawData rawResults).filter (keepItem selectedYear selectedPolicy)
  match rawResults with
  | some _ => isort scoreLe l
  | none => isort (yearLe sortOrder) l

/-- The specification's year key for the baseline sort, with non-numeric or
missing years mapped to the lowest possible value (`⊥`). -/
def specYearKey (r : Record) : WithBot Int :=
  match parseIntJS r.year with
  | some n => (n : WithBot Int)
  | none => ⊥

/-! ## Paginator (source lines 151–155) -/

/-- `ITEMS_PER_PAGE` from source line 47. -/
def ITEMS_PER_PAGE : ℕ := 20

/-- `Math.ceil(filteredData.length / ITEMS_PER_PAGE)` — exact rational
division followed by ceiling, as `Math.ceil` computes it on these
magnitudes. -/
def totalPages (view : List Record) : ℕ :=
  (⌈(view.length : ℚ) / (ITEMS_PER_PAGE : ℚ)⌉).toNat

/-- `filteredData.slice((currentPage-1)*20, (currentPage-1)*20 + 20)` for a
1-based `currentPage`. -/
def currentPageData (view : List Record) (currentPage : ℕ) : List Record :=
  (view.drop ((currentPage - 1) * ITEMS_PER_PAGE)).take ITEMS_PER_PAGE

/-! ## SearchSessionController (source lines 79–106) -/

/-- The component state touched by `handleSubmit`.  `rawResults = none` is
Baseline mode; `some` is Search mode.  There is no error field: the
component exposes no error state. -/
structure UIState where
  rawData : List Record
  rawResults : Option (List Record)
  isLoading : Bool
  inputTerm : String
  searchTerm : String
  selectedYear : String
  selectedPolicy : String
  sortOrder : String
  currentPage : ℕ
deriving DecidableEq, Repr

/-- `handleSubmit`, with the awaited `fetch`+`res.json()` pipeline
abstracted as `response` (`.error ()` = network or parse failure, `.ok ms`
= the enriched match list).  Mirrors the source: `setSearchTerm(q)` happens
unconditionally before the empty-query early return; the `catch` block only
logs (`console.error`, a side effect outside this state); the `finally`
block clears `isLoading` on both paths. -/
def handleSubmit (st : UIState) (response : Except Unit (List Record)) : UIState :=
  let q := jsTrim st.inputTerm
  let st1 := { st with searchTerm := q }
  if q = "" then { st1 with rawResults := none }
  else
    match response with
    | .ok ms => { st1 with rawResults := some ms, currentPage := 1, isLoading := false }
    | .error _ => { st1 with isLoading := false }

/-! ## Concrete data used in counterexamples and witnesses -/

/-- A record whose year does not parse as an integer. -/
def recNaN : Record :=
  ⟨"AT.40099", "n/a", some "Antitrust", "app stores", some "market text", "u1", none⟩

/-- A record with year 2024. -/
def rec2024 : Record :=
  ⟨"M.11234", "2024", some "Merger", "cement", some "cement market", "u2", none⟩

/-- A record with year 2020. -/
def rec2020 : Record :=
  ⟨"M.9876", "2020", some "Merger", "steel", some "steel market", "u3", none⟩

/-- Scored search matches: a tie at score 7/10 behind a leading 9/10. -/
def scored1 : Record := ⟨"S.1", "2021", some "Antitrust", "t1", some "x1", "v1", some (9/10)⟩

/-- Second scored match, first member of the tie. -/
def scored2 : Record := ⟨"S.2", "2019", some "Merger", "t2", some "x2", "v2", some (7/10)⟩

/-- Third scored match, second member of the tie. -/
def scored3 : Record := ⟨"S.3", "2023", some "Merger", "t3", some "x3", "v3", some (7/10)⟩

/-- A concrete pre-submit component state used by the witnesses. -/
def st0 : UIState :=
  ⟨[rec2020, rec2024], some [scored1], true, " merger remedies ", "old term",
    "2024", "Merger", "newest", 3⟩

/-! ## Helper lemmas: characters and trimming -/

/-- ASCII `toLower` is idempotent. -/
theorem char_toLower_toLower (c : Char) : c.toLower.toLower = c.toLower := by
  have hdef : ∀ d : Char,
      d.toLower = if d.toNat ≥ 65 ∧ d.toNat ≤ 90 then Char.ofNat (d.toNat + 32) else d :=
    fun d => rfl
  by_cases h : c.toNat ≥ 65 ∧ c.toNat ≤ 90
  · have hval : (c.toNat + 32).isValidChar := Or.inl (by omega)
    have htn : (Char.ofNat (c.toNat + 32)).toNat = c.toNat + 32 := by
      rw [Char.ofNat, dif_pos hval]
      simp [Char.ofNatAux, Char.toNat, UInt32.toNat]
    rw [hdef c, if_pos h, hdef (Char.ofNat (c.toNat + 32)), htn, if_neg (by omega)]
  · rw [hdef c, if_neg h, hdef c, if_neg h]

/-- `dropWhile` is idempotent. -/
theorem dropWhile_dropWhile {α : Type} (p : α → Bool) (l : List α) :
    (l.dropWhile p).dropWhile p = l.dropWhile p := by
  induction l with
  | nil => rfl
  | cons c t ih =>
    rw [List.dropWhile_cons]
    split
    · exact ih
    next h => rw [List.dropWhile_cons, if_neg h]

/-- If `dropWhile` leaves a nonempty list unchanged, its head fails the
predicate. -/
theorem head_false_of_dropWhile_fixed {α : Type} {p : α → Bool} {c : α} {t : List α}
    (h : List.dropWhile p (c :: t) = c :: t) : p c = false := by
  cases hc : p c
  · rfl
  · exfalso
    rw [List.dropWhile_cons, if_pos hc] at h
    have hle := (List.dropWhile_sublist (l := t) p).length_le
    rw [h] at hle
    simp only [List.length_cons] at hle
    omega

/-- `trimRightC l` is an initial segment of `l`. -/
theorem trimRightC_append (l : List Char) : ∃ t, l = trimRightC l ++ t := by
  obtain ⟨t, ht⟩ := (List.dropWhile_suffix (l := l.reverse) Char.isWhitespace)
  refine ⟨t.reverse, ?_⟩
  unfold trimRightC
  calc l = l.reverse.reverse := by rw [List.reverse_reverse]
  _ = (t ++ List.dropWhile Char.isWhitespace l.reverse).reverse := by rw [ht]
  _ = (List.dropWhile Char.isWhitespace l.reverse).reverse ++ t.reverse := by
      rw [List.reverse_append]

/-- Trimming the right end preserves an already-trimmed left end. -/
theorem trimLeftC_trimRightC {w : List Char} (hw : trimLeftC w = w) :
    trimLeftC (trimRightC w) = trimRightC w := by
  obtain ⟨t, ht⟩ := trimRightC_append w
  cases htr : trimRightC w with
  | nil => rfl
  | cons c u =>
    have hw2 : w = c :: (u ++ t) := by rw [ht, htr]; rfl
    have hpc : Char.isWhitespace c = false := by
      apply head_false_of_dropWhile_fixed (t := u ++ t)
      rw [← hw2]
      exact hw
    unfold trimLeftC
    rw [List.dropWhile_cons, if_neg (by simp [hpc])]

/-- `trimRightC` is idempotent. -/
theorem trimRightC_trimRightC (l : List Char) :
    trimRightC (trimRightC l) = trimRightC l := by
  unfold trimRightC
  rw [List.reverse_reverse, dropWhile_dropWhile]

/-- `trimChars` is idempotent. -/
theorem trimChars_trimChars (l : List Char) : trimChars (trimChars l) = trimChars l := by
  unfold trimChars
  have hw : trimLeftC (trimLeftC l) = trimLeftC l := dropWhile_dropWhile Char.isWhitespace l
  rw [trimLeftC_trimRightC hw, trimRightC_trimRightC]

/-- Membership survives trimming. -/
theorem mem_of_mem_trimChars {c : Char} {l : List Char} (h : c ∈ trimChars l) :
    c ∈ l := by
  unfold trimChars trimRightC trimLeftC at h
  rw [List.mem_reverse] at h
  have h2 := (List.dropWhile_sublist Char.isWhitespace).mem h
  rw [List.mem_reverse] at h2
  exact (List.dropWhile_sublist Char.isWhitespace).mem h2

/-- Mapping a function that fixes every element of a list is the identity. -/
theorem map_eq_self_of_mem {α : Type} {f : α → α} {l : List α}
    (h : ∀ a ∈ l, f a = a) : l.map f = l := by
  rw [List.map_congr_left (g := id) h, List.map_id]

/-- A filter after a map is the `filterMap` that tests the mapped value. -/
theorem filter_map_eq_filterMap {α β : Type} (f : α → β) (p : β → Bool) (l : List α) :
    (l.map f).filter p = l.filterMap (fun c => if p (f c) then some (f c) else none) := by
  induction l with
  | nil => rfl
  | cons c t ih =>
    cases h : p (f c) <;>
      simp [List.filter_cons, List.filterMap_cons, h, ih]

/-! ## Helper lemmas: the stable sort -/

/-- Membership in an insertion step. -/
theorem mem_insort {α : Type} {le : α → α → Bool} {x a : α} {l : List α} :
    a ∈ insort le x l ↔ a = x ∨ a ∈ l := by
  induction l with
  | nil => simp [insort]
  | cons y ys ih =>
    simp only [insort]
    split
    · simp [List.mem_cons]
    · simp only [List.mem_cons, ih]
      tauto

/-- The insertion sort permutes nothing in or out. -/
theorem mem_isort {α : Type} {le : α → α → Bool} {a : α} {l : List α} :
    a ∈ isort le l ↔ a ∈ l := by
  induction l with
  | nil => simp [isort]
  | cons x xs ih => simp [isort, mem_insort, ih, List.mem_cons]

/-- Inserting into a le-chain preserves the chain, assuming totality of the
comparator on a class `P` covering every participating element. -/
theorem chain'_insort {α : Type} {le : α → α → Bool} {P : α → Prop}
    (htot : ∀ a b, P a → P b → (le a b = true ∨ le b a = true))
    {x : α} {l : List α} (hx : P x) (hl : ∀ a ∈ l, P a)
    (hc : List.Chain' (fun a b => le a b = true) l) :
    List.Chain' (fun a b => le a b = true) (insort le x l) := by
  induction l with
  | nil => simp [insort]
  | cons y ys ih =>
    simp only [insort]
    split
    next h => exact List.chain'_cons.mpr ⟨h, hc⟩
    next h =>
      have hyx : le y x = true := by
        rcases htot x y hx (hl y (List.mem_cons_self y ys)) with h1 | h1
        · exact absurd h1 h
        · exact h1
      refine List.chain'_cons'.mpr ⟨?_, ?_⟩
      · intro z hz
        cases ys with
        | nil =>
          simp only [insort, List.head?, Option.mem_def, Option.some.injEq] at hz
          subst hz
          exact hyx
        | cons w ws =>
          simp only [insort] at hz
          split at hz
          · simp only [List.head?, Option.mem_def, Option.some.injEq] at hz
            subst hz
            exact hyx
          · simp only [List.head?, Option.mem_def, Option.some.injEq] at hz
            subst hz
            exact (List.chain'_cons.mp hc).1
      · exact ih (fun a ha => hl a (List.mem_cons_of_mem y ha)) hc.tail

/-- The insertion sort yields a le-chain whenever the comparator is total
on a class covering the list. -/
theorem chain'_isort {α : Type} {le : α → α → Bool} {P : α → Prop}
    (htot : ∀ a b, P a → P b → (le a b = true ∨ le b a = true))
    {l : List α} (hl : ∀ a ∈ l, P a) :
    List.Chain' (fun a b => le a b = true) (isort le l) := by
  induction l with
  | nil => simp [isort]
  | cons x xs ih =>
    exact chain'_insort htot (hl x (List.mem_cons_self x xs))
      (fun a ha => hl a (List.mem_cons_of_mem x (mem_isort.mp ha)))
      (ih (fun a ha => hl a (List.mem_cons_of_mem x ha)))

/-- A chain may be weakened along a pointwise implication that only needs
to hold on the members of the list. -/
theorem chain'_imp_mem {α : Type} {R S : α → α → Prop} {P : α → Prop} :
    ∀ {l : List α}, (∀ a ∈ l, P a) → (∀ a b, P a → P b → R a b → S a b) →
      List.Chain' R l → List.Chain' S l := by
  intro l
  induction l with
  | nil => intro _ _ _; simp
  | cons x xs ih =>
    intro hl himp hc
    cases xs with
    | nil => simp
    | cons y ys =>
      rw [List.chain'_cons] at hc ⊢
      refine ⟨himp x y (hl x (List.mem_cons_self x _))
        (hl y (List.mem_cons_of_mem x (List.mem_cons_self y ys))) hc.1, ?_⟩
      exact ih (fun a ha => hl a (List.mem_cons_of_mem x ha)) himp hc.2

/-- An element failing the filter may be inserted anywhere without changing
the filtered list. -/
theorem filter_insort_neg {α : Type} (le : α → α → Bool) (p : α → Bool) {x : α}
    (hx : p x = false) (l : List α) :
    (insort le x l).filter p = l.filter p := by
  induction l with
  | nil => simp [insort, hx]
  | cons y ys ih =>
    simp only [insort]
    split
    · simp [List.filter_cons, hx]
    · rw [List.filter_cons, List.filter_cons (x := y), ih]

/-- An element of the filter class gets inserted before every other member
of the class, provided the comparator lets it precede the whole class. -/
theorem filter_insort_pos {α : Type} (le : α → α → Bool) (p : α → Bool) {x : α}
    (hx : p x = true) (hle : ∀ b, p b = true → le x b = true) (l : List α) :
    (insort le x l).filter p = x :: l.filter p := by
  induction l with
  | nil => simp [insort, hx]
  | cons y ys ih =>
    simp only [insort]
    split
    next h => simp [List.filter_cons, hx]
    next h =>
      have hy : p y = false := by
        cases hpy : p y
        · rfl
        · exact absurd (hle y hpy) h
      rw [List.filter_cons, if_neg (by simp [hy]), ih,
        List.filter_cons, if_neg (by simp [hy])]

/-- Stability of the insertion sort: the subsequence of elements inside a
class on which the comparator always answers "may precede" is untouched. -/
theorem filter_isort_stable {α : Type} (le : α → α → Bool) (p : α → Bool)
    (hcls : ∀ a b, p a = true → p b = true → le a b = true) :
    ∀ l : List α, (isort le l).filter p = l.filter p := by
  intro l
  induction l with
  | nil => rfl
  | cons x xs ih =>
    simp only [isort]
    cases hx : p x
    · rw [filter_insort_neg le p hx, ih, List.filter_cons, if_neg (by simp [hx])]
    · rw [filter_insort_pos le p hx (fun b hb => hcls x b hx hb), ih,
        List.filter_cons, if_pos hx]

/-! ## Helper lemmas: regex escaping -/

/-- The escaped form of any string parses as exactly that literal: the
escaping pass makes the pattern a valid literal search for the original
term. -/
theorem parseLiteralPattern_escape (l : List Char) :
    parseLiteralPattern (escapeRegExpChars l) = some l := by
  induction l with
  | nil => rfl
  | cons c rest ih =>
    simp only [escapeRegExpChars]
    split
    next h =>
      simp [parseLiteralPattern, ih]
    next h =>
      have hns : ¬(c = '\\') := by
        intro e
        rw [e] at h
        exact h (by decide)
      rw [parseLiteralPattern.eq_def]
      simp only []
      rw [if_neg hns, if_neg h, ih]
      rfl

/-! ## Helper lemmas: pagination arithmetic -/

/-- `Math.ceil(n / 20)` agrees with the natural ceiling division. -/
theorem ceil_div_twenty (n : ℕ) :
    (⌈(n : ℚ) / ((20 : ℕ) : ℚ)⌉).toNat = (n + 19) / 20 := by
  have hc : ((20 : ℕ) : ℚ) = (20 : ℚ) := by norm_num
  have h20 : (0 : ℚ) < (20 : ℚ) := by norm_num
  have h1n : n ≤ (n + 19) / 20 * 20 := by omega
  have h2n : (n + 19) / 20 * 20 < n + 20 := by omega
  have key : ⌈(n : ℚ) / ((20 : ℕ) : ℚ)⌉ = (((n + 19) / 20 : ℕ) : ℤ) := by
    rw [hc, Int.ceil_eq_iff]
    constructor
    · rw [lt_div_iff₀ h20, Int.cast_natCast]
      have hq : (((n + 19) / 20 : ℕ) : ℚ) * 20 < (n : ℚ) + 20 := by exact_mod_cast h2n
      linarith
    · rw [div_le_iff₀ h20, Int.cast_natCast]
      exact_mod_cast h1n
  rw [key, Int.toNat_natCast]

/-- Membership facts about characters surviving the normalization pipeline:
they are kept by the character class and already lower-case. -/
theorem normalize_aux_mem {s : String} {c : Char}
    (h : c ∈ trimChars ((s.data.map Char.toLower).filter keepChar)) :
    keepChar c = true ∧ c.toLower = c := by
  have h2 := mem_of_mem_trimChars h
  rw [List.mem_filter] at h2
  obtain ⟨hmem, hkeep⟩ := h2
  rw [List.mem_map] at hmem
  obtain ⟨d, _, hd⟩ := hmem
  exact ⟨hkeep, by rw [← hd, char_toLower_toLower]⟩

/-! ## The claims -/

/-- C10: `normalize` is idempotent — for every string (or absent) input,
normalizing an already-normalized label changes nothing, so comparing two
labels by their normalized forms is insensitive to prior normalization. -/
theorem c10_normalize_idempotent (s : Option String) :
    normalizeString (some (normalizeString s)) = normalizeString s := by
  cases s with
  | none => rfl
  | some s =>
    by_cases hs : s = ""
    · subst hs
      rfl
    · simp only [normalizeString, if_neg hs]
      set y := trimChars ((s.data.map Char.toLower).filter keepChar) with hy
      by_cases hr : String.mk y = ""
      · rw [if_pos hr]
        exact hr.symm
      · rw [if_neg hr]
        have hmap : y.map Char.toLower = y :=
          map_eq_self_of_mem (fun a ha => (normalize_aux_mem (hy ▸ ha)).2)
        have hfil : y.filter keepChar = y :=
          List.filter_eq_self.mpr (fun a ha => (normalize_aux_mem (hy ▸ ha)).1)
        have hidem : trimChars y = y := by
          rw [hy]
          exact trimChars_trimChars _
        show String.mk (trimChars ((y.map Char.toLower).filter keepChar)) = String.mk y
        rw [hmap, hfil, hidem]

/-- C6 counterexample: the claim says every character that is not a letter,
digit, whitespace or `&` is stripped; the implementation keeps the
underscore (it is in the JS `\w` class), so on `"a_b"` the code and the
claimed behaviour disagree. -/
theorem c6_counterexample :
    normalizeString (some "a_b") = "a_b" ∧ normalizeSpecClaim (some "a_b") = "ab" ∧
      normalizeString (some "a_b") ≠ normalizeSpecClaim (some "a_b") := by
  have h1 : normalizeString (some "a_b") = "a_b" := rfl
  have h2 : normalizeSpecClaim (some "a_b") = "ab" := rfl
  refine ⟨h1, h2, ?_⟩
  rw [h1, h2]
  decide

/-- C6 amended: `normalize` lower-cases, strips every character that is not
a letter, digit, underscore, whitespace or `&`, and trims; undefined or
empty input yields `""`. -/
theorem c6_amended_normalize :
    (∀ s : Option String, normalizeString s = normalizeAmendedSpec s) ∧
      normalizeString none = "" ∧ normalizeString (some "") = "" := by
  refine ⟨?_, rfl, rfl⟩
  intro s
  cases s with
  | none => rfl
  | some s =>
    by_cases hs : s = ""
    · subst hs
      rfl
    · simp only [normalizeString, normalizeAmendedSpec, if_neg hs]
      rw [filter_map_eq_filterMap Char.toLower keepChar s.data]
      rfl

/-- C5: `highlight(text, term)` is total on string inputs — the escaping
pass turns the term into a pattern that is a valid regex matching the term
literally, so the call never throws, even for metacharacter-laden terms;
and a term that trims to blank returns the text unchanged. -/
theorem c5_highlight_total (text searchTerm : String) :
    (∃ out, highlightText (some text) searchTerm = .ok out) ∧
    parseLiteralPattern (escapeRegExpChars searchTerm.data) = some searchTerm.data ∧
    (jsTrim searchTerm = "" → highlightText (some text) searchTerm = .ok (some text)) := by
  refine ⟨?_, parseLiteralPattern_escape searchTerm.data, ?_⟩
  · by_cases h : jsTrim searchTerm = ""
    · exact ⟨some text, by unfold highlightText; rw [if_pos h]⟩
    · unfold highlightText
      rw [if_neg h, parseLiteralPattern_escape]
      generalize searchTerm.data = L
      cases L with
      | nil => exact ⟨_, rfl⟩
      | cons p0 prest => exact ⟨_, rfl⟩
  · intro h
    unfold highlightText
    rw [if_pos h]

/-- C5 witness: instantiated at a term full of regex metacharacters and at
a blank term. -/
theorem c5_highlight_total_witness :
    ((∃ out, highlightText (some "Deal M&a (eu) done") "M&A (EU)" = .ok out) ∧
      parseLiteralPattern (escapeRegExpChars "M&A (EU)".data) = some "M&A (EU)".data ∧
      (jsTrim "M&A (EU)" = "" → highlightText (some "Deal M&a (eu) done") "M&A (EU)"
        = .ok (some "Deal M&a (eu) done"))) ∧
    (jsTrim "  " = "" → highlightText (some "abc") "  " = .ok (some "abc")) :=
  ⟨c5_highlight_total "Deal M&a (eu) done" "M&A (EU)",
    (c5_highlight_total "abc" "  ").2.2⟩

/-- C8 counterexample: with an absent `text` field and an active non-blank
search term the highlighter throws (`text.replace` on `undefined`), so
highlighting is not "skipped" there; with a blank term the absent text
does pass through. -/
theorem c8_counterexample :
    highlightText none "merger" = .error () ∧ highlightText none "" = .ok none := by
  constructor
  · rfl
  · rfl

/-- C8 amended: a falsy/absent `text` passes through the highlighter
untouched exactly when the stored search term is empty or all-whitespace
(the blank-term early return fires before `text` is used); with a
non-blank term, highlighting an absent text raises instead of being
skipped. -/
theorem c8_amended_highlight_skip (term : String) :
    (jsTrim term = "" → highlightText none term = .ok none) ∧
    (jsTrim term ≠ "" → highlightText none term = .error ()) := by
  constructor
  · intro h
    unfold highlightText
    rw [if_pos h]
  · intro h
    unfold highlightText
    rw [if_neg h, parseLiteralPattern_escape]

/-- C8 witness for the amended claim, at a blank and a non-blank term. -/
theorem c8_amended_highlight_skip_witness :
    highlightText none " " = .ok none ∧ highlightText none "cement" = .error () :=
  ⟨(c8_amended_highlight_skip " ").1 rfl,
    (c8_amended_highlight_skip "cement").2 (by decide)⟩

/-- C1: a record is in the composed View iff it is in the active candidate
sequence and passes both filter predicates independently (exact year match
when the year filter is set, normalized equality when the policy filter is
set); relaxing either filter to absent yields a superset. -/
theorem c1_filter_conjunction (rawData : List Record) (rawResults : Option (List Record))
    (sy sp so : String) (r : Record) :
    (r ∈ composeView rawData rawResults sy sp so ↔
      r ∈ candidateList rawData rawResults ∧ (sy = "" ∨ r.year = sy) ∧
        (sp = "" ∨ normalizeString r.policy_area = normalizeString (some sp))) ∧
    (r ∈ composeView rawData rawResults sy sp so →
      r ∈ composeView rawData rawResults "" sp so) ∧
    (r ∈ composeView rawData rawResults sy sp so →
      r ∈ composeView rawData rawResults sy "" so) := by
  have hmem : ∀ sy2 sp2 : String, r ∈ composeView rawData rawResults sy2 sp2 so ↔
      r ∈ candidateList rawData rawResults ∧ keepItem sy2 sp2 r = true := by
    intro sy2 sp2
    cases rawResults with
    | none =>
      have e1 : composeView rawData none sy2 sp2 so
          = isort (yearLe so) (rawData.filter (keepItem sy2 sp2)) := rfl
      have e2 : candidateList rawData none = rawData := rfl
      rw [e1, e2, mem_isort, List.mem_filter]
    | some rs =>
      have e1 : composeView rawData (some rs) sy2 sp2 so
          = isort scoreLe (rs.filter (keepItem sy2 sp2)) := rfl
      have e2 : candidateList rawData (some rs) = rs := rfl
      rw [e1, e2, mem_isort, List.mem_filter]
  have hkeep : ∀ sy2 sp2 : String, keepItem sy2 sp2 r = true ↔
      ((sy2 = "" ∨ r.year = sy2) ∧
        (sp2 = "" ∨ normalizeString r.policy_area = normalizeString (some sp2))) := by
    intro sy2 sp2
    simp [keepItem, Bool.and_eq_true, Bool.or_eq_true, beq_iff_eq]
  refine ⟨?_, ?_, ?_⟩
  · rw [hmem, hkeep]
  · intro hin
    rw [hmem, hkeep] at hin ⊢
    exact ⟨hin.1, Or.inl rfl, hin.2.2⟩
  · intro hin
    rw [hmem, hkeep] at hin ⊢
    exact ⟨hin.1, hin.2.1, Or.inl rfl⟩

/-- C1 witness: a record with no filters set is in the composed View. -/
theorem c1_filter_conjunction_witness :
    rec2020 ∈ composeView [rec2020] none "" "" "newest" :=
  (c1_filter_conjunction [rec2020] none "" "" "newest" rec2020).1.mpr
    ⟨by simp [candidateList], Or.inl rfl, Or.inl rfl⟩

/-- C2 counterexample: a record with a non-parsable year does NOT sort as
the lowest value.  `parseInt("n/a")` is NaN, the comparator result is NaN,
ECMAScript's `SortCompare` coerces it to `+0`, so the record compares
equal to everything and the stable sort leaves it in place: under NEWEST
the View starts with the `"n/a"` record ahead of the 2024 record, where
"lowest value sorts last under descending order" demands the opposite. -/
theorem c2_counterexample :
    composeView [recNaN, rec2024] none "" "" "newest" = [recNaN, rec2024] ∧
    ¬ List.Chain' (fun a b => specYearKey b ≤ specYearKey a)
        (composeView [recNaN, rec2024] none "" "" "newest") := by
  constructor
  · rfl
  · intro hch
    have e : composeView [recNaN, rec2024] none "" "" "newest" = [recNaN, rec2024] := rfl
    rw [e] at hch
    have h1 : specYearKey rec2024 ≤ specYearKey recNaN := (List.chain'_cons.mp hch).1
    have e24 : specYearKey rec2024 = ((2024 : Int) : WithBot Int) := rfl
    have enan : specYearKey recNaN = ⊥ := rfl
    rw [e24, enan] at h1
    exact WithBot.not_coe_le_bot _ h1

/-- C2 amended: in Baseline mode the composed View is ordered by year
parsed as an integer — descending for NEWEST, ascending for OLDEST —
whenever every candidate year parses; a record with a non-numeric or
missing year raises no error, but its comparator result is NaN, coerced to
`+0`, so it compares equal to every record and keeps its stable-sort
position rather than sorting as the lowest value. -/
theorem c2_amended_year_sort (rawData : List Record) (sy sp : String)
    (h : ∀ r ∈ rawData, (parseIntJS r.year).isSome = true) :
    List.Chain' (fun a b => (parseIntJS b.year).getD 0 ≤ (parseIntJS a.year).getD 0)
      (composeView rawData none sy sp "newest") ∧
    List.Chain' (fun a b => (parseIntJS a.year).getD 0 ≤ (parseIntJS b.year).getD 0)
      (composeView rawData none sy sp "oldest") := by
  have hl2 : ∀ a ∈ rawData.filter (keepItem sy sp), (parseIntJS a.year).isSome = true :=
    fun a ha => h a (List.mem_filter.mp ha).1
  constructor
  · have hcv : composeView rawData none sy sp "newest"
        = isort (yearLe "newest") (rawData.filter (keepItem sy sp)) := rfl
    rw [hcv]
    have htot : ∀ a b : Record, (parseIntJS a.year).isSome = true →
        (parseIntJS b.year).isSome = true →
        (yearLe "newest" a b = true ∨ yearLe "newest" b a = true) := by
      intro a b ha hb
      rw [Option.isSome_iff_exists] at ha hb
      obtain ⟨x, hx⟩ := ha
      obtain ⟨y, hy⟩ := hb
      simp only [yearLe, jsYearComparator, hx, hy, beq_self_eq_true, if_true,
        decide_eq_true_eq]
      omega
    refine chain'_imp_mem (fun a ha => hl2 a (mem_isort.mp ha)) ?_ (chain'_isort htot hl2)
    intro a b ha hb hr
    rw [Option.isSome_iff_exists] at ha hb
    obtain ⟨x, hx⟩ := ha
    obtain ⟨y, hy⟩ := hb
    simp only [yearLe, jsYearComparator, hx, hy, beq_self_eq_true, if_true,
      decide_eq_true_eq] at hr
    simp only [hx, hy, Option.getD_some]
    omega
  · have hcv : composeView rawData none sy sp "oldest"
        = isort (yearLe "oldest") (rawData.filter (keepItem sy sp)) := rfl
    rw [hcv]
    have hne : (("oldest" : String) == "newest") = false := by decide
    have htot : ∀ a b : Record, (parseIntJS a.year).isSome = true →
        (parseIntJS b.year).isSome = true →
        (yearLe "oldest" a b = true ∨ yearLe "oldest" b a = true) := by
      intro a b ha hb
      rw [Option.isSome_iff_exists] at ha hb
      obtain ⟨x, hx⟩ := ha
      obtain ⟨y, hy⟩ := hb
      simp only [yearLe, jsYearComparator, hx, hy, hne, if_false,
        Bool.false_eq_true, decide_eq_true_eq]
      omega
    refine chain'_imp_mem (fun a ha => hl2 a (mem_isort.mp ha)) ?_ (chain'_isort htot hl2)
    intro a b ha hb hr
    rw [Option.isSome_iff_exists] at ha hb
    obtain ⟨x, hx⟩ := ha
    obtain ⟨y, hy⟩ := hb
    simp only [yearLe, jsYearComparator, hx, hy, hne, if_false,
      Bool.false_eq_true, decide_eq_true_eq] at hr
    simp only [hx, hy, Option.getD_some]
    omega

/-- C2 witness for the amended claim, on a two-record baseline whose years
both parse. -/
theorem c2_amended_year_sort_witness :
    (∀ r ∈ [rec2020, rec2024], (parseIntJS r.year).isSome = true) ∧
    (List.Chain' (fun a b => (parseIntJS b.year).getD 0 ≤ (parseIntJS a.year).getD 0)
        (composeView [rec2020, rec2024] none "" "" "newest") ∧
      List.Chain' (fun a b => (parseIntJS a.year).getD 0 ≤ (parseIntJS b.year).getD 0)
        (composeView [rec2020, rec2024] none "" "" "oldest")) :=
  ⟨by decide, c2_amended_year_sort [rec2020, rec2024] "" "" (by decide)⟩

/-- C3: with search results active the composed View is sorted by
descending score, equal-score records keep their relative input order (the
filtered subsequence at any given score is untouched by the sort), and the
result does not depend on the SortMode at all. -/
theorem c3_score_sort (rawData rs : List Record) (sy sp so so2 : String) (q : ℚ)
    (h : ∀ r ∈ rs, r.score.isSome = true) :
    List.Chain' (fun a b => b.score.getD 0 ≤ a.score.getD 0)
      (composeView rawData (some rs) sy sp so) ∧
    (composeView rawData (some rs) sy sp so).filter (fun r => r.score == some q)
      = (rs.filter (keepItem sy sp)).filter (fun r => r.score == some q) ∧
    composeView rawData (some rs) sy sp so = composeView rawData (some rs) sy sp so2 := by
  have hcv : composeView rawData (some rs) sy sp so
      = isort scoreLe (rs.filter (keepItem sy sp)) := rfl
  have hl2 : ∀ a ∈ rs.filter (keepItem sy sp), a.score.isSome = true :=
    fun a ha => h a (List.mem_filter.mp ha).1
  refine ⟨?_, ?_, rfl⟩
  · rw [hcv]
    have htot : ∀ a b : Record, a.score.isSome = true → b.score.isSome = true →
        (scoreLe a b = true ∨ scoreLe b a = true) := by
      intro a b ha hb
      rw [Option.isSome_iff_exists] at ha hb
      obtain ⟨x, hx⟩ := ha
      obtain ⟨y, hy⟩ := hb
      simp only [scoreLe, jsScoreComparator, hx, hy, decide_eq_true_eq]
      rcases le_total y x with hle | hle
      · exact Or.inl (by linarith)
      · exact Or.inr (by linarith)
    refine chain'_imp_mem (fun a ha => hl2 a (mem_isort.mp ha)) ?_ (chain'_isort htot hl2)
    intro a b ha hb hr
    rw [Option.isSome_iff_exists] at ha hb
    obtain ⟨x, hx⟩ := ha
    obtain ⟨y, hy⟩ := hb
    simp only [scoreLe, jsScoreComparator, hx, hy, decide_eq_true_eq] at hr
    simp only [hx, hy, Option.getD_some]
    linarith
  · rw [hcv]
    apply filter_isort_stable
    intro a b ha hb
    rw [beq_iff_eq] at ha hb
    simp only [scoreLe, jsScoreComparator, ha, hb, decide_eq_true_eq]
    simp

/-- C3 witness: three scored matches with a tie — sorted descending, the
tie order preserved, SortMode irrelevant. -/
theorem c3_score_sort_witness :
    (∀ r ∈ [scored1, scored2, scored3], r.score.isSome = true) ∧
    (List.Chain' (fun a b => b.score.getD 0 ≤ a.score.getD 0)
        (composeView [] (some [scored1, scored2, scored3]) "" "" "newest") ∧
      (composeView [] (some [scored1, scored2, scored3]) "" "" "newest").filter
          (fun r => r.score == some (7/10))
        = ([scored1, scored2, scored3].filter (keepItem "" "")).filter
            (fun r => r.score == some (7/10)) ∧
      composeView [] (some [scored1, scored2, scored3]) "" "" "newest"
        = composeView [] (some [scored1, scored2, scored3]) "" "" "oldest") :=
  ⟨by decide, c3_score_sort [] [scored1, scored2, scored3] "" "" "newest" "oldest"
    (7/10) (by decide)⟩

/-- C4: when the search call fails after submitting a non-empty query, the
failure leaves the prior result source (Baseline/Search mode and the active
result set), the baseline data, the filters, the sort order and the page
untouched, and clears the in-flight flag; there is no error field in the
state at all, so no error state can be exposed.  The `catch` block's
`console.error` is a log side effect outside the state. -/
theorem c4_search_failure_noop (st : UIState) (h : jsTrim st.inputTerm ≠ "") :
    (handleSubmit st (.error ())).rawResults = st.rawResults ∧
    (handleSubmit st (.error ())).rawData = st.rawData ∧
    (handleSubmit st (.error ())).currentPage = st.currentPage ∧
    (handleSubmit st (.error ())).selectedYear = st.selectedYear ∧
    (handleSubmit st (.error ())).selectedPolicy = st.selectedPolicy ∧
    (handleSubmit st (.error ())).sortOrder = st.sortOrder ∧
    (handleSubmit st (.error ())).isLoading = false ∧
    composeView (handleSubmit st (.error ())).rawData
        (handleSubmit st (.error ())).rawResults st.selectedYear st.selectedPolicy
        st.sortOrder
      = composeView st.rawData st.rawResults st.selectedYear st.selectedPolicy
          st.sortOrder := by
  simp only [handleSubmit]
  rw [if_neg h]
  exact ⟨rfl, rfl, rfl, rfl, rfl, rfl, rfl, rfl⟩

/-- C4 witness, on a concrete in-search state with a pending non-empty
query. -/
theorem c4_search_failure_noop_witness :
    jsTrim st0.inputTerm ≠ "" ∧
    ((handleSubmit st0 (.error ())).rawResults = st0.rawResults ∧
      (handleSubmit st0 (.error ())).rawData = st0.rawData ∧
      (handleSubmit st0 (.error ())).currentPage = st0.currentPage ∧
      (handleSubmit st0 (.error ())).selectedYear = st0.selectedYear ∧
      (handleSubmit st0 (.error ())).selectedPolicy = st0.selectedPolicy ∧
      (handleSubmit st0 (.error ())).sortOrder = st0.sortOrder ∧
      (handleSubmit st0 (.error ())).isLoading = false ∧
      composeView (handleSubmit st0 (.error ())).rawData
          (handleSubmit st0 (.error ())).rawResults st0.selectedYear
          st0.selectedPolicy st0.sortOrder
        = composeView st0.rawData st0.rawResults st0.selectedYear
            st0.selectedPolicy st0.sortOrder) :=
  ⟨by decide, c4_search_failure_noop st0 (by decide)⟩

/-- C9: submitting a non-empty query stores the trimmed query as the
highlight search term regardless of the outcome of the asynchronous call
— in particular a failed search keeps the prior result set but still
carries the new search term, which is therefore not part of the state
preserved on failure. -/
theorem c9_search_term_updated (st : UIState) (resp : Except Unit (List Record))
    (h : jsTrim st.inputTerm ≠ "") :
    (handleSubmit st resp).searchTerm = jsTrim st.inputTerm ∧
    (handleSubmit st (.error ())).searchTerm = jsTrim st.inputTerm ∧
    (handleSubmit st (.error ())).rawResults = st.rawResults := by
  refine ⟨?_, ?_, ?_⟩
  · simp only [handleSubmit]
    rw [if_neg h]
    cases resp with
    | ok ms => rfl
    | error e => rfl
  · simp only [handleSubmit]
    rw [if_neg h]
  · simp only [handleSubmit]
    rw [if_neg h]

/-- C9 witness: after a failed submit of `" merger remedies "`, the stored
search term is the trimmed new query while the result set is the old one. -/
theorem c9_search_term_updated_witness :
    jsTrim st0.inputTerm ≠ "" ∧
    ((handleSubmit st0 (.ok [scored2])).searchTerm = jsTrim st0.inputTerm ∧
      (handleSubmit st0 (.error ())).searchTerm = jsTrim st0.inputTerm ∧
      (handleSubmit st0 (.error ())).rawResults = st0.rawResults) :=
  ⟨by decide, c9_search_term_updated st0 (.ok [scored2]) (by decide)⟩

/-- C7: `totalPages` is the ceiling of the view length divided by the page
size 20 (in particular 0 for an empty view); every page slice is the
contiguous 20-wide window clamped to the view, and the final page holds
`n mod 20` records — or 20 when `n` is a non-zero multiple of 20. -/
theorem c7_pagination (view : List Record) :
    totalPages view = (view.length + 19) / 20 ∧
    (view.length = 0 → totalPages view = 0) ∧
    (∀ p : ℕ, 1 ≤ p →
      (currentPageData view p).length = min 20 (view.length - (p - 1) * 20) ∧
      ∀ i : ℕ, i < (currentPageData view p).length →
        (currentPageData view p)[i]? = view[(p - 1) * 20 + i]?) ∧
    (view.length ≠ 0 →
      (currentPageData view (totalPages view)).length
        = if view.length % 20 = 0 then 20 else view.length % 20) := by
  have htp : totalPages view = (view.length + 19) / 20 := ceil_div_twenty view.length
  have hlen : ∀ p : ℕ, (currentPageData view p).length
      = min 20 (view.length - (p - 1) * 20) := by
    intro p
    show ((view.drop ((p - 1) * 20)).take 20).length = _
    rw [List.length_take, List.length_drop]
  refine ⟨htp, ?_, ?_, ?_⟩
  · intro h0
    rw [htp, h0]
  · intro p _
    refine ⟨hlen p, ?_⟩
    intro i hi
    rw [hlen p] at hi
    have hi20 : i < 20 := lt_of_lt_of_le hi (min_le_left _ _)
    show ((view.drop ((p - 1) * 20)).take 20)[i]? = _
    rw [List.getElem?_take, if_pos hi20, List.getElem?_drop]
  · intro hne
    rw [hlen (totalPages view), htp]
    by_cases hmod : view.length % 20 = 0
    · rw [if_pos hmod]
      omega
    · rw [if_neg hmod]
      omega

/-- C7 witness: a 25-record view has 2 pages and a final page of 5. -/
theorem c7_pagination_witness :
    (totalPages (List.replicate 25 rec2020) = (25 + 19) / 20 ∧
      ((List.replicate 25 rec2020 : List Record).length = 0 →
        totalPages (List.replicate 25 rec2020) = 0) ∧
      (∀ p : ℕ, 1 ≤ p →
        (currentPageData (List.replicate 25 rec2020) p).length
          = min 20 ((List.replicate 25 rec2020 : List Record).length - (p - 1) * 20) ∧
        ∀ i : ℕ, i < (currentPageData (List.replicate 25 rec2020) p).length →
          (currentPageData (List.replicate 25 rec2020) p)[i]?
            = (List.replicate 25 rec2020 : List Record)[(p - 1) * 20 + i]?) ∧
      ((List.replicate 25 rec2020 : List Record).length ≠ 0 →
        (currentPageData (List.replicate 25 rec2020)
            (totalPages (List.replicate 25 rec2020))).length
          = if (List.replicate 25 rec2020 : List Record).length % 20 = 0 then 20
            else (List.replicate 25 rec2020 : List Record).length % 20)) ∧
    (currentPageData (List.replicate 25 rec2020) 2).length = 5 :=
  ⟨c7_pagination (List.replicate 25 rec2020), by decide⟩
